import Mathlib

/-!
# Verification of FLINT fragments

Shallow embedding, in Lean 4, of the source files

* `src/acb_theta/dist_a0.c`  (`acb_theta_dist_a0`)
* `padic/log.c`              (`_padic_log_bound`, `padic_log`)
* `ca/check_equal.c`         (`ca_check_equal`)

together with proofs of the behavioural properties stated in the
natural-language specification.

Certified (ball) real numbers are modelled as midpoint/radius pairs of
rationals.  The ball-arithmetic substrate called by `acb_theta_dist_a0`
(`arb_mat_inv`, `acb_theta_eld_cho`, `arb_mat_vector_mul_col`,
`_arb_vec_add`, `acb_theta_dist_lat`) is not part of the given source
fragment; those operations are abstracted as explicit function parameters
(the record `ArbPrims`), and, where a property depends on their behaviour,
concrete instances modelled from the specification are supplied.
-/

/-- Certified real value: midpoint/radius pair of rationals.  The true value
is asserted to lie in `[mid - rad, mid + rad]`.  This models `arb_t` at the
level of precision-free rational ball arithmetic. -/
structure Ball where
  mid : ℚ
  rad : ℚ
  deriving DecidableEq, Repr

/-- The zero ball (midpoint 0, radius 0). -/
def ball0 : Ball := ⟨0, 0⟩

instance : Inhabited Ball := ⟨ball0⟩

/-- Lower endpoint of a ball's enclosure. -/
def Ball.lo (b : Ball) : ℚ := b.mid - b.rad

/-- Upper endpoint of a ball's enclosure. -/
def Ball.hi (b : Ball) : ℚ := b.mid + b.rad

/-- Real (arb) vector: a list of balls. -/
abbrev ArbVec := List Ball

/-- Real (arb) matrix: a list of rows of balls. -/
abbrev ArbMat := List (List Ball)

/-- Certified complex value: a ball for the real part and one for the
imaginary part. -/
abbrev AcbElem := Ball × Ball

/-- Complex (acb) vector. -/
abbrev AcbVec := List AcbElem

/-- Complex (acb) matrix. -/
abbrev AcbMat := List (List AcbElem)

/-- Imaginary part of a complex matrix, entrywise (models
`acb_mat_get_imag`). -/
def acb_mat_get_imag (tau : AcbMat) : ArbMat :=
  tau.map (fun row => row.map Prod.snd)

/-- Imaginary parts of the first `g` entries of a complex vector (models
`_acb_vec_get_imag`).  Out-of-range reads produce the zero ball; the C
source performs no dimension check. -/
def acb_vec_get_imag (z : AcbVec) (g : ℕ) : ArbVec :=
  (List.range g).map (fun i => (z.getD i (ball0, ball0)).snd)

/-- Modelled from the spec: `acb_theta_char_get_arb` derives the offset
vector of theta characteristic `a` in dimension `g`; each set bit of `a`
contributes `1/2` to the corresponding coordinate (the function itself is
not part of the source fragment). -/
def acb_theta_char_get_arb (a : ℕ) (g : ℕ) : ArbVec :=
  (List.range g).map (fun i => if a.testBit i then ⟨1/2, 0⟩ else ball0)

/-- External ball-arithmetic and theta primitives used by
`acb_theta_dist_a0` but not defined in the source fragment:
`arb_mat_inv`, `acb_theta_eld_cho`, `arb_mat_vector_mul_col`,
`_arb_vec_add`, `acb_theta_dist_lat`.  Every operation takes the working
precision as its last argument, as in the C library. -/
structure ArbPrims where
  mat_inv : ArbMat → ℤ → ArbMat
  eld_cho : AcbMat → ℤ → ArbMat
  mul_col : ArbMat → ArbVec → ℤ → ArbVec
  vec_add : ArbVec → ArbVec → ℕ → ℤ → ArbVec
  dist_lat : ArbVec → ArbMat → ℤ → Ball

/-- Write value `x` into slot `i` of the output map `d` (models storing
into the caller-provided output buffer `dist`). -/
def updOut (d : ℕ → Ball) (i : ℕ) (x : Ball) : ℕ → Ball :=
  fun j => if j = i then x else d j

/-- The matrix `cho` computed once by `acb_theta_dist_a0`:
`acb_theta_eld_cho(cho, tau, prec)`. -/
def dist_a0_cho (P : ArbPrims) (tau : AcbMat) (prec : ℤ) : ArbMat :=
  P.eld_cho tau prec

/-- The vector `v` computed once by `acb_theta_dist_a0`:
`v = Yinv * Im(z)` where `Yinv = inv(Im(tau))`. -/
def dist_a0_v (P : ArbPrims) (z : AcbVec) (tau : AcbMat) (prec : ℤ) : ArbVec :=
  P.mul_col (P.mat_inv (acb_mat_get_imag tau) prec) (acb_vec_get_imag z tau.length) prec

/-- Value stored by `acb_theta_dist_a0` into output slot `a`: the loop body
`w := char(a); w := v + w; w := cho * w; dist_lat(&dist[a], w, cho, prec)`
expressed as a function of `a` and the precomputed data only. -/
def acb_theta_dist_body (P : ArbPrims) (z : AcbVec) (tau : AcbMat) (prec : ℤ) (a : ℕ) : Ball :=
  P.dist_lat
    (P.mul_col (dist_a0_cho P tau prec)
      (P.vec_add (dist_a0_v P z tau prec) (acb_theta_char_get_arb a tau.length)
        tau.length prec) prec)
    (dist_a0_cho P tau prec) prec

/-- Translation of `acb_theta_dist_a0` (src/acb_theta/dist_a0.c).  `dist` is
the caller-provided output buffer, modelled as a map from slot index to
value; the function returns the final state of that buffer.  The loop over
the `2^g` characteristics is kept as a sequential left fold, writing slot
`a` at iteration `a`, exactly as the C loop does. -/
def acb_theta_dist_a0 (P : ArbPrims) (dist : ℕ → Ball) (z : AcbVec) (tau : AcbMat)
    (prec : ℤ) : ℕ → Ball :=
  let g := tau.length
  let n := 1 <<< g
  let Yinv := P.mat_inv (acb_mat_get_imag tau) prec
  let cho := P.eld_cho tau prec
  let v := P.mul_col Yinv (acb_vec_get_imag z g) prec
  (List.range n).foldl
    (fun d a =>
      updOut d a
        (P.dist_lat (P.mul_col cho (P.vec_add v (acb_theta_char_get_arb a g) g prec) prec)
          cho prec))
    dist

/-- Variant of `acb_theta_dist_a0` that executes the characteristic loop in
an arbitrary iteration order given by the list `order` (used to state
independence of the loop iterations). -/
def acb_theta_dist_a0_order (P : ArbPrims) (order : List ℕ) (dist : ℕ → Ball) (z : AcbVec)
    (tau : AcbMat) (prec : ℤ) : ℕ → Ball :=
  let g := tau.length
  let Yinv := P.mat_inv (acb_mat_get_imag tau) prec
  let cho := P.eld_cho tau prec
  let v := P.mul_col Yinv (acb_vec_get_imag z g) prec
  order.foldl
    (fun d a =>
      updOut d a
        (P.dist_lat (P.mul_col cho (P.vec_add v (acb_theta_char_get_arb a g) g prec) prec)
          cho prec))
    dist

/-- Modelled from the spec: the algorithm of section 4.3 stated
declaratively.  Compute `Yinv` (once), the Cholesky factor (once) and
`v = Yinv * Im(z)` (once); then output slot `a`, for each characteristic
`a < 2^g`, holds the lattice distance of `cho * (v + offset(a))`; slots
outside `[0, 2^g)` keep the caller's buffer contents. -/
def acb_theta_dist_a0_spec (P : ArbPrims) (dist : ℕ → Ball) (z : AcbVec) (tau : AcbMat)
    (prec : ℤ) : ℕ → Ball :=
  let g := tau.length
  let Yinv := P.mat_inv (acb_mat_get_imag tau) prec
  let cho := P.eld_cho tau prec
  let v := P.mul_col Yinv (acb_vec_get_imag z g) prec
  fun a =>
    if a < 2 ^ g then
      P.dist_lat (P.mul_col cho (P.vec_add v (acb_theta_char_get_arb a g) g prec) prec)
        cho prec
    else dist a

/-- Ball addition with exact rational arithmetic: midpoints add, radii add. -/
def ballAdd (x y : Ball) : Ball := ⟨x.mid + y.mid, x.rad + y.rad⟩

/-- Ball subtraction with exact rational arithmetic. -/
def ballSub (x y : Ball) : Ball := ⟨x.mid - y.mid, x.rad + y.rad⟩

/-- Scaling of a ball by an exact integer. -/
def ballIntMul (x : Ball) (n : ℤ) : Ball := ⟨x.mid * n, x.rad * |(n : ℚ)|⟩

/-- Exact interval square of a ball: the image of `[lo, hi]` under squaring,
returned as a midpoint/radius pair.  Its lower endpoint is never negative. -/
def ballSqIv (b : Ball) : Ball :=
  ⟨((if b.lo ≤ 0 ∧ 0 ≤ b.hi then 0 else min (b.lo * b.lo) (b.hi * b.hi))
      + max (b.lo * b.lo) (b.hi * b.hi)) / 2,
   (max (b.lo * b.lo) (b.hi * b.hi)
      - (if b.lo ≤ 0 ∧ 0 ≤ b.hi then 0 else min (b.lo * b.lo) (b.hi * b.hi))) / 2⟩

/-- Rounding of a rational to the nearest integer (half up). -/
def roundQ (x : ℚ) : ℤ := ⌊x + 1 / 2⌋

/-- Lattice point selection by triangular back-substitution on midpoints,
from the last coordinate down to the first: coordinate `k` is chosen as the
nearest integer to `(w_k - sum_{j>k} C_kj n_j) / C_kk`.  Returns the suffix
`[n_k, ..., n_{g-1}]`; `fuel` counts the remaining coordinates. -/
def backSolveAux (w : ArbVec) (C : ArbMat) (g : ℕ) : ℕ → ℕ → List ℤ
  | 0, _ => []
  | fuel + 1, k =>
    let rest := backSolveAux w C g fuel (k + 1)
    let row := C.getD k []
    let t := (w.getD k ball0).mid -
      (((List.range (g - k - 1)).map
        (fun m => (row.getD (k + 1 + m) ball0).mid * ((rest.getD m 0 : ℤ) : ℚ))).sum)
    let d := (row.getD k ball0).mid
    let nk : ℤ := if d = 0 then 0 else roundQ (t / d)
    nk :: rest

/-- Lattice point chosen by back-substitution for the whole vector. -/
def backSolve (w : ArbVec) (C : ArbMat) (g : ℕ) : List ℤ := backSolveAux w C g g 0

/-- Certified residual vector `w - C * n` for an integer lattice point `n`. -/
def latResidual (w : ArbVec) (C : ArbMat) (ns : List ℤ) (g : ℕ) : ArbVec :=
  (List.range g).map (fun k =>
    ballSub (w.getD k ball0)
      (((List.range g).map
        (fun j => ballIntMul ((C.getD k []).getD j ball0) (ns.getD j 0))).foldl ballAdd ball0))

/-- Modelled from the spec: the lattice distance evaluator
`acb_theta_dist_lat` (not part of the source fragment).  Section 4.2 of the
specification: triangular back-substitution chooses a nearby lattice point
coordinate-by-coordinate from the last coordinate down, rounding to the
nearest integer multiple of the diagonal step, and a certified squared
residual is accumulated.  Arithmetic is exact rational ball arithmetic, so
the precision argument does not influence the result. -/
def acb_theta_dist_lat (w : ArbVec) (C : ArbMat) (prec : ℤ) : Ball :=
  let g := w.length
  let ns := backSolve w C g
  ((latResidual w C ns g).map ballSqIv).foldl ballAdd ball0

/-- A simple instance of the primitive-operation record.  It is used only to
exhibit concrete inputs in witnesses (satisfiability of the interface
hypotheses); it does not model the library's numeric behaviour. -/
def trivPrims : ArbPrims where
  mat_inv := fun M _ => M
  eld_cho := fun T _ => acb_mat_get_imag T
  mul_col := fun _ u _ => u
  vec_add := fun u _ _ _ => u
  dist_lat := fun _ _ _ => ball0

/-- The simple primitive instance with the spec-modelled lattice distance
evaluator plugged in. -/
def distPrims : ArbPrims := { trivPrims with dist_lat := acb_theta_dist_lat }

/-- Enclosure containment between balls: the enclosure of `b₁` is contained
in the enclosure of `b₂`. -/
def BallIncl (b₁ b₂ : Ball) : Prop := b₂.lo ≤ b₁.lo ∧ b₁.hi ≤ b₂.hi

/-- Entrywise enclosure containment between ball vectors of equal length. -/
def VecIncl (u w : ArbVec) : Prop :=
  u.length = w.length ∧ ∀ i, BallIncl (u.getD i ball0) (w.getD i ball0)

/-- Entrywise enclosure containment between ball matrices of equal shape. -/
def MatIncl (A B : ArbMat) : Prop :=
  A.length = B.length ∧ ∀ i, VecIncl (A.getD i []) (B.getD i [])

/-- Precision monotonicity of a certified matrix operation: on the same
input, a higher working precision yields entrywise tighter (contained)
enclosures. -/
def MonoInv (f : ArbMat → ℤ → ArbMat) : Prop :=
  ∀ M p q, p ≤ q → MatIncl (f M q) (f M p)

/-- Precision monotonicity of the certified Cholesky operation. -/
def MonoCho (f : AcbMat → ℤ → ArbMat) : Prop :=
  ∀ T p q, p ≤ q → MatIncl (f T q) (f T p)

/-- Precision monotonicity and inclusion isotonicity of certified
matrix-vector multiplication: tighter inputs at higher precision yield a
tighter output. -/
def MonoMul (f : ArbMat → ArbVec → ℤ → ArbVec) : Prop :=
  ∀ M M' u u' p q, p ≤ q → MatIncl M' M → VecIncl u' u → VecIncl (f M' u' q) (f M u p)

/-- Precision monotonicity and inclusion isotonicity of certified vector
addition. -/
def MonoAdd (f : ArbVec → ArbVec → ℕ → ℤ → ArbVec) : Prop :=
  ∀ u u' w w' g p q, p ≤ q → VecIncl u' u → VecIncl w' w → VecIncl (f u' w' g q) (f u w g p)

/-- Precision monotonicity and inclusion isotonicity of the lattice
distance evaluator. -/
def MonoDist (f : ArbVec → ArbMat → ℤ → Ball) : Prop :=
  ∀ w w' C C' p q, p ≤ q → VecIncl w' w → MatIncl C' C → BallIncl (f w' C' q) (f w C p)

/-- Machine word size assumed by the embedding (the C sources use
`FLINT_BITS`; 64-bit platform). -/
def FLINT_BITS : ℕ := 64

/-- Modelled from the spec: FLINT `n_flog(n, b)` returns `⌊log_b n⌋` (the
function lives in `ulong_extras`, outside the source fragment).  `fuel`
bounds the recursion depth; `fuel = n` always suffices. -/
def flogAux (p : ℕ) : ℕ → ℕ → ℕ
  | 0, _ => 0
  | fuel + 1, n => if 2 ≤ p ∧ p ≤ n then flogAux p fuel (n / p) + 1 else 0

/-- Floor logarithm `⌊log_p n⌋` (models FLINT `n_flog`). -/
def n_flog (n p : ℕ) : ℕ := flogAux p n n

/-- Modelled from the spec: FLINT `n_clog(n, b)` returns `⌈log_b n⌉` (from
`ulong_extras`, outside the source fragment).  For `n ≥ 2` this equals
`⌊log_p (n-1)⌋ + 1`, and it is `0` for `n ≤ 1`. -/
def n_clog (n p : ℕ) : ℕ := if n ≤ 1 then 0 else n_flog (n - 1) p + 1

/-- The backwards search loop of `_padic_log_bound`:
`while (--b >= 2) { t = b*v - n_clog(b, p); if (t < N) return b + 1; }
return 2;`, translated as structural recursion on the tested value.  The
argument is the first tested value `b - 1`; the signed comparison
`b*v - n_clog(b,p) < N` is rendered as `b*v < N + n_clog b p`. -/
def padicLogBoundLoop (v N p : ℕ) : ℕ → ℕ
  | 0 => 2
  | 1 => 2
  | b + 2 => if (b + 2) * v < N + n_clog (b + 2) p then b + 3 else padicLogBoundLoop v N p (b + 1)

/-- Translation of `_padic_log_bound` (padic/log.c).  The `abort()` branch
for `N ≥ 2^(FLINT_BITS - 2)` is modelled as `none`; otherwise the result is
`some` of the value the C function returns.  `fmpz_fits_si(prime)` becomes
`p ≤ 2^63 - 1` (the prime is positive). -/
def padic_log_bound (v N p : ℕ) : Option ℕ :=
  if 2 ^ (FLINT_BITS - 2) ≤ N then none
  else if p ≤ 2 ^ 63 - 1 then
    let c := N - n_flog v p
    let b := (c + n_clog c p + 1 + (v - 1)) / v
    some (padicLogBoundLoop v N p (b - 1))
  else
    some ((N + v - 1) / v)

/-- Modelled from the spec: the exponent returned by `fmpz_remove(t, y, p)`,
the number of times `p` divides `y` (from the `fmpz` module, outside the
source fragment).  `fuel` bounds the recursion; `fuel = |y|` suffices for
`y ≠ 0`. -/
def ordAux (p : ℤ) : ℕ → ℤ → ℕ
  | 0, _ => 0
  | fuel + 1, y => if 2 ≤ p ∧ p ∣ y ∧ y ≠ 0 then ordAux p fuel (y / p) + 1 else 0

/-- Multiplicity of `p` in `y` (the value `fmpz_remove` returns). -/
def ordZ (p y : ℤ) : ℤ := (ordAux p y.natAbs y : ℤ)

/-- A p-adic number in FLINT representation: unit `u` and valuation `v`,
denoting `u * p^v`. -/
structure PadicT where
  u : ℤ
  v : ℤ
  deriving DecidableEq, Repr

/-- A p-adic context: the prime `p` and the precision `N`. -/
structure PadicCtx where
  p : ℤ
  N : ℤ
  deriving DecidableEq, Repr

/-- The zero p-adic number (`padic_zero`: unit 0, valuation 0). -/
def padic_zero : PadicT := ⟨0, 0⟩

/-- Modelled from the spec: `padic_get_fmpz` for an operand of nonnegative
valuation returns the integer `u * p^v` (from the `padic` module, outside
the source fragment). -/
def padic_get_fmpz (op : PadicT) (ctx : PadicCtx) : ℤ :=
  op.u * ctx.p ^ op.v.toNat

/-- Translation of `padic_log` (padic/log.c).  Returns the pair of the C
return value and the final state of `rop`.  The series evaluator
`_padic_log` and `_padic_canonicalise` are outside the decidable fragment
(their callees are not in the source) and are abstracted as the parameters
`logFn` (mapping `y, v, p, N` to the computed unit) and `canonFn`. -/
def padic_log (logFn : ℤ → ℤ → ℤ → ℤ → ℤ) (canonFn : PadicT → PadicCtx → PadicT)
    (rop op : PadicT) (ctx : PadicCtx) : ℤ × PadicT :=
  if op.v < 0 then (0, rop)
  else
    let x := 1 - padic_get_fmpz op ctx
    if x = 0 then (1, padic_zero)
    else
      let v : ℤ := ordZ ctx.p x
      if 2 ≤ v ∨ (ctx.p ≠ 2 ∧ 1 ≤ v) then
        if ctx.N ≤ v then (1, padic_zero)
        else (1, canonFn ⟨logFn x v ctx.p ctx.N, 0⟩ ctx)
      else (0, rop)

/-- The three-valued truth type `truth_t` of Calcium. -/
inductive Truth where
  | T_TRUE
  | T_FALSE
  | T_UNKNOWN
  deriving DecidableEq, Repr

/-- A Calcium number: the id of the field it lives in, together with the
rational payload `CA_FMPQ(x)` (meaningful when the field is `QQ`). -/
structure Ca where
  fieldId : ℕ
  fmpq : ℚ
  deriving DecidableEq, Repr

/-- The field id of the rational field `QQ`. -/
def CA_FIELD_ID_QQ : ℕ := 0

/-- Rational equality test (models `fmpq_equal`). -/
def fmpq_equal (x y : ℚ) : Bool := decide (x = y)

/-- Translation of `ca_check_equal` (ca/check_equal.c).  The context is
never read or written by this function. -/
def ca_check_equal (x y : Ca) (ctx : Unit) : Truth :=
  if x.fieldId = CA_FIELD_ID_QQ ∧ y.fieldId = CA_FIELD_ID_QQ then
    (if fmpq_equal x.fmpq y.fmpq then Truth.T_TRUE else Truth.T_FALSE)
  else Truth.T_UNKNOWN

/-! ## Theorems -/

lemma dist_a0_eq_foldl (P : ArbPrims) (d : ℕ → Ball) (z : AcbVec) (tau : AcbMat) (prec : ℤ) :
    acb_theta_dist_a0 P d z tau prec
      = (List.range (2 ^ tau.length)).foldl
          (fun acc a => updOut acc a (acb_theta_dist_body P z tau prec a)) d := by
  simp only [acb_theta_dist_a0, acb_theta_dist_body, dist_a0_cho, dist_a0_v, Nat.one_shiftLeft]

lemma dist_a0_order_eq_foldl (P : ArbPrims) (order : List ℕ) (d : ℕ → Ball) (z : AcbVec)
    (tau : AcbMat) (prec : ℤ) :
    acb_theta_dist_a0_order P order d z tau prec
      = order.foldl (fun acc a => updOut acc a (acb_theta_dist_body P z tau prec a)) d := by
  simp only [acb_theta_dist_a0_order, acb_theta_dist_body, dist_a0_cho, dist_a0_v]

lemma foldl_updOut_eq (f : ℕ → Ball) (d : ℕ → Ball) (n : ℕ) (j : ℕ) :
    ((List.range n).foldl (fun acc a => updOut acc a (f a)) d) j
      = if j < n then f j else d j := by
  induction n with
  | zero => simp
  | succ n ih =>
    rw [List.range_succ, List.foldl_append, List.foldl_cons, List.foldl_nil]
    show (if j = n then f n else ((List.range n).foldl (fun acc a => updOut acc a (f a)) d) j)
      = _
    by_cases hj : j = n
    · rw [if_pos hj, if_pos (by omega)]; rw [hj]
    · rw [if_neg hj, ih]
      by_cases h2 : j < n
      · rw [if_pos h2, if_pos (by omega)]
      · rw [if_neg h2, if_neg (by omega)]

/-- C1: for every complex matrix `tau`, vector `z` and precision,
`acb_theta_dist_a0` computes its result by the specified algorithm: `Yinv`
(inverse of the imaginary part of `tau`) once, the Cholesky factor once,
`v = Yinv * Im(z)` once; then, for each characteristic `a < 2^g`, the
offset vector derived from the bits of `a` is added to `v`, multiplied by
the Cholesky factor, and the lattice distance of the result is stored into
output slot `a`. -/
theorem dist_a0_follows_spec_algorithm (P : ArbPrims) (d : ℕ → Ball) (z : AcbVec)
    (tau : AcbMat) (prec : ℤ) :
    acb_theta_dist_a0 P d z tau prec = acb_theta_dist_a0_spec P d z tau prec := by
  funext j
  rw [dist_a0_eq_foldl, foldl_updOut_eq]
  simp only [acb_theta_dist_a0_spec, acb_theta_dist_body, dist_a0_cho, dist_a0_v]

/-- C2: for input dimension `g = ` number of rows of `tau`, the function
writes exactly the `2^g` output slots `0, ..., 2^g - 1`; slot `a` holds the
value for theta characteristic `a`, and every other slot of the output
buffer is untouched. -/
theorem dist_a0_output_indexed (P : ArbPrims) (d : ℕ → Ball) (z : AcbVec) (tau : AcbMat)
    (prec : ℤ) :
    (∀ a, a < 2 ^ tau.length →
      acb_theta_dist_a0 P d z tau prec a = acb_theta_dist_body P z tau prec a) ∧
    (∀ a, 2 ^ tau.length ≤ a → acb_theta_dist_a0 P d z tau prec a = d a) := by
  constructor
  · intro a ha
    rw [dist_a0_eq_foldl, foldl_updOut_eq, if_pos ha]
  · intro a ha
    rw [dist_a0_eq_foldl, foldl_updOut_eq, if_neg (by omega)]

/-- C2 witness: a concrete instance in dimension `g = 1`. -/
theorem dist_a0_output_indexed_witness :
    acb_theta_dist_a0 trivPrims (fun _ => ball0) [] [[(ball0, ball0)]] 10 1
        = acb_theta_dist_body trivPrims [] [[(ball0, ball0)]] 10 1 ∧
    acb_theta_dist_a0 trivPrims (fun _ => ball0) [] [[(ball0, ball0)]] 10 2 = ball0 :=
  ⟨(dist_a0_output_indexed trivPrims (fun _ => ball0) [] [[(ball0, ball0)]] 10).1 1 (by decide),
   (dist_a0_output_indexed trivPrims (fun _ => ball0) [] [[(ball0, ball0)]] 10).2 2 (by decide)⟩

lemma updOut_comm (f : ℕ → Ball) (d : ℕ → Ball) (a b : ℕ) :
    updOut (updOut d a (f a)) b (f b) = updOut (updOut d b (f b)) a (f a) := by
  funext j
  rcases eq_or_ne j b with rfl | hb
  · rcases eq_or_ne j a with rfl | ha
    · simp [updOut]
    · simp [updOut, ha]
  · rcases eq_or_ne j a with rfl | ha
    · simp [updOut, hb]
    · simp [updOut, hb, ha]

lemma foldl_updOut_perm (f : ℕ → Ball) {l₁ l₂ : List ℕ} (h : l₁.Perm l₂) (d : ℕ → Ball) :
    l₁.foldl (fun acc a => updOut acc a (f a)) d
      = l₂.foldl (fun acc a => updOut acc a (f a)) d := by
  induction h generalizing d with
  | nil => rfl
  | cons x _ ih => simp only [List.foldl_cons]; exact ih _
  | swap x y l => simp only [List.foldl_cons]; rw [updOut_comm]
  | trans _ _ ih1 ih2 => rw [ih1, ih2]

/-- C5: the `2^g` iterations of the characteristic loop are independent:
each slot is a function only of its characteristic and the precomputed
read-only data, so executing the loop in any iteration order (any
permutation of `0, ..., 2^g - 1`) produces the same output map. -/
theorem dist_a0_loop_order_independent (P : ArbPrims) (order : List ℕ) (d : ℕ → Ball)
    (z : AcbVec) (tau : AcbMat) (prec : ℤ)
    (h : order.Perm (List.range (2 ^ tau.length))) :
    acb_theta_dist_a0_order P order d z tau prec = acb_theta_dist_a0 P d z tau prec := by
  rw [dist_a0_eq_foldl, dist_a0_order_eq_foldl]
  exact foldl_updOut_perm _ h d

/-- C5 witness: the reversed iteration order in dimension 1 gives the same
output map. -/
theorem dist_a0_loop_order_independent_witness :
    acb_theta_dist_a0_order trivPrims [1, 0] (fun _ => ball0) [] [[(ball0, ball0)]] 10
      = acb_theta_dist_a0 trivPrims (fun _ => ball0) [] [[(ball0, ball0)]] 10 :=
  dist_a0_loop_order_independent trivPrims [1, 0] (fun _ => ball0) [] [[(ball0, ball0)]] 10
    (by decide)

/-- C6: `acb_theta_dist_a0` has no failure path.  For every input — with no
precondition whatsoever, so including well-formed inputs, a dimension
mismatch between `z` and `tau`, and a non-positive-definite imaginary part
with matching dimensions — it performs no check and signals no error: it
terminates and fills every output slot below `2^g` with a (possibly
meaningless) value, leaving all other slots unchanged. -/
theorem dist_a0_total_no_failure (P : ArbPrims) (d : ℕ → Ball) (z : AcbVec) (tau : AcbMat)
    (prec : ℤ) (j : ℕ) :
    acb_theta_dist_a0 P d z tau prec j
      = if j < 2 ^ tau.length then acb_theta_dist_body P z tau prec j else d j := by
  rw [dist_a0_eq_foldl, foldl_updOut_eq]

/-- C6 witness: a concrete call on an input violating the preconditions (an
empty `z` against a 1×1 `tau`, so the dimensions mismatch) still produces a
fully defined result. -/
theorem dist_a0_total_no_failure_witness :
    ([] : AcbVec).length ≠ ([[(ball0, ball0)]] : AcbMat).length ∧
    acb_theta_dist_a0 trivPrims (fun _ => ball0) [] [[(ball0, ball0)]] 10 0
      = (if 0 < 2 ^ ([[(ball0, ball0)]] : AcbMat).length then
          acb_theta_dist_body trivPrims [] [[(ball0, ball0)]] 10 0
        else ball0) :=
  ⟨by decide,
   dist_a0_total_no_failure trivPrims (fun _ => ball0) [] [[(ball0, ball0)]] 10 0⟩

lemma BallIncl_refl (b : Ball) : BallIncl b b := ⟨le_refl _, le_refl _⟩

lemma VecIncl_refl (u : ArbVec) : VecIncl u u := ⟨rfl, fun _ => BallIncl_refl _⟩

lemma MatIncl_refl (A : ArbMat) : MatIncl A A := ⟨rfl, fun _ => VecIncl_refl _⟩

/-- C4: re-running `acb_theta_dist_a0` on the same exact inputs at a higher
working precision produces, in every output slot, an enclosure contained in
(or equal to) the lower-precision one, provided the external certified
primitives have this precision-monotonicity property (the specification
asserts it for the substrate; it is not part of this source fragment). -/
theorem dist_a0_precision_monotone (P : ArbPrims) (h1 : MonoInv P.mat_inv)
    (h2 : MonoCho P.eld_cho) (h3 : MonoMul P.mul_col) (h4 : MonoAdd P.vec_add)
    (h5 : MonoDist P.dist_lat) (d : ℕ → Ball) (z : AcbVec) (tau : AcbMat) (p q : ℤ)
    (hpq : p ≤ q) (a : ℕ) :
    BallIncl (acb_theta_dist_a0 P d z tau q a) (acb_theta_dist_a0 P d z tau p a) := by
  rw [dist_a0_eq_foldl, dist_a0_eq_foldl, foldl_updOut_eq, foldl_updOut_eq]
  by_cases ha : a < 2 ^ tau.length
  · rw [if_pos ha, if_pos ha]
    unfold acb_theta_dist_body dist_a0_cho dist_a0_v
    exact h5 _ _ _ _ _ _ hpq
      (h3 _ _ _ _ _ _ hpq (h2 _ _ _ hpq)
        (h4 _ _ _ _ _ _ _ hpq
          (h3 _ _ _ _ _ _ hpq (h1 _ _ _ hpq) (VecIncl_refl _))
          (VecIncl_refl _)))
      (h2 _ _ _ hpq)
  · rw [if_neg ha, if_neg ha]
    exact BallIncl_refl _

lemma trivPrims_mono_inv : MonoInv trivPrims.mat_inv := fun M _ _ _ => MatIncl_refl M

lemma trivPrims_mono_cho : MonoCho trivPrims.eld_cho := fun T _ _ _ =>
  MatIncl_refl (acb_mat_get_imag T)

lemma trivPrims_mono_mul : MonoMul trivPrims.mul_col := fun _ _ _ _ _ _ _ _ hu => hu

lemma trivPrims_mono_add : MonoAdd trivPrims.vec_add := fun _ _ _ _ _ _ _ _ hu _ => hu

lemma trivPrims_mono_dist : MonoDist trivPrims.dist_lat := fun _ _ _ _ _ _ _ _ _ =>
  BallIncl_refl ball0

/-- C4 witness: concrete precisions 10 ≤ 20 with primitives satisfying the
monotonicity interface. -/
theorem dist_a0_precision_monotone_witness :
    (10 : ℤ) ≤ 20 ∧
    BallIncl (acb_theta_dist_a0 trivPrims (fun _ => ball0) [] [[(ball0, ball0)]] 20 0)
      (acb_theta_dist_a0 trivPrims (fun _ => ball0) [] [[(ball0, ball0)]] 10 0) :=
  ⟨by norm_num,
   dist_a0_precision_monotone trivPrims trivPrims_mono_inv trivPrims_mono_cho
     trivPrims_mono_mul trivPrims_mono_add trivPrims_mono_dist (fun _ => ball0) []
     [[(ball0, ball0)]] 10 20 (by norm_num) 0⟩

lemma ballSqIv_nonneg (b : Ball) : 0 ≤ (ballSqIv b).rad ∧ 0 ≤ (ballSqIv b).lo := by
  have hll : (0 : ℚ) ≤ b.lo * b.lo := mul_self_nonneg _
  have hhh : (0 : ℚ) ≤ b.hi * b.hi := mul_self_nonneg _
  have hmm : min (b.lo * b.lo) (b.hi * b.hi) ≤ max (b.lo * b.lo) (b.hi * b.hi) := min_le_max
  have hmin : (0 : ℚ) ≤ min (b.lo * b.lo) (b.hi * b.hi) := le_min hll hhh
  have hmax : (0 : ℚ) ≤ max (b.lo * b.lo) (b.hi * b.hi) := le_trans hll (le_max_left _ _)
  constructor
  · show 0 ≤ (max (b.lo * b.lo) (b.hi * b.hi)
      - (if b.lo ≤ 0 ∧ 0 ≤ b.hi then 0 else min (b.lo * b.lo) (b.hi * b.hi))) / 2
    split_ifs with h
    · linarith
    · linarith
  · show 0 ≤ ((if b.lo ≤ 0 ∧ 0 ≤ b.hi then 0 else min (b.lo * b.lo) (b.hi * b.hi))
        + max (b.lo * b.lo) (b.hi * b.hi)) / 2
      - (max (b.lo * b.lo) (b.hi * b.hi)
        - (if b.lo ≤ 0 ∧ 0 ≤ b.hi then 0 else min (b.lo * b.lo) (b.hi * b.hi))) / 2
    split_ifs with h
    · linarith
    · linarith

lemma ballAdd_nonneg {x y : Ball} (hx : 0 ≤ x.rad ∧ 0 ≤ x.lo) (hy : 0 ≤ y.rad ∧ 0 ≤ y.lo) :
    0 ≤ (ballAdd x y).rad ∧ 0 ≤ (ballAdd x y).lo := by
  obtain ⟨hx1, hx2⟩ := hx
  obtain ⟨hy1, hy2⟩ := hy
  rw [Ball.lo] at hx2 hy2
  constructor
  · show 0 ≤ x.rad + y.rad
    linarith
  · show 0 ≤ x.mid + y.mid - (x.rad + y.rad)
    linarith

lemma foldl_ballAdd_nonneg (l : List Ball) (init : Ball)
    (hinit : 0 ≤ init.rad ∧ 0 ≤ init.lo) (h : ∀ b ∈ l, 0 ≤ b.rad ∧ 0 ≤ b.lo) :
    0 ≤ (l.foldl ballAdd init).rad ∧ 0 ≤ (l.foldl ballAdd init).lo := by
  induction l generalizing init with
  | nil => exact hinit
  | cons b t ih =>
    rw [List.foldl_cons]
    exact ih (ballAdd init b) (ballAdd_nonneg hinit (h b (List.mem_cons_self b t)))
      fun c hc => h c (List.mem_cons_of_mem _ hc)

lemma dist_lat_nonneg (w : ArbVec) (C : ArbMat) (prec : ℤ) :
    0 ≤ (acb_theta_dist_lat w C prec).rad ∧ 0 ≤ (acb_theta_dist_lat w C prec).lo := by
  unfold acb_theta_dist_lat
  apply foldl_ballAdd_nonneg
  · constructor
    · simp [ball0]
    · simp [ball0, Ball.lo]
  · intro b hb
    rw [List.mem_map] at hb
    obtain ⟨c, _, rfl⟩ := hb
    exact ballSqIv_nonneg c

/-- C3: with the lattice distance evaluator in place, every one of the
`2^g` entries written by `acb_theta_dist_a0` is a non-negative certified
value: its radius is `≥ 0` and the lower endpoint of its enclosure is
`≥ 0` (the arithmetic of the model is exact, so the rounding allowance `ε`
is zero). -/
theorem dist_a0_entries_nonneg (P : ArbPrims) (hP : P.dist_lat = acb_theta_dist_lat)
    (d : ℕ → Ball) (z : AcbVec) (tau : AcbMat) (prec : ℤ) (a : ℕ)
    (ha : a < 2 ^ tau.length) :
    0 ≤ (acb_theta_dist_a0 P d z tau prec a).rad ∧
    0 ≤ (acb_theta_dist_a0 P d z tau prec a).lo := by
  rw [dist_a0_eq_foldl, foldl_updOut_eq, if_pos ha]
  unfold acb_theta_dist_body
  rw [hP]
  exact dist_lat_nonneg _ _ _

/-- C3 witness: a concrete 1-dimensional instance. -/
theorem dist_a0_entries_nonneg_witness :
    0 ≤ (acb_theta_dist_a0 distPrims (fun _ => ball0) [(ball0, ⟨1, 0⟩)] [[(ball0, ⟨1, 0⟩)]]
          53 1).rad ∧
    0 ≤ (acb_theta_dist_a0 distPrims (fun _ => ball0) [(ball0, ⟨1, 0⟩)] [[(ball0, ⟨1, 0⟩)]]
          53 1).lo :=
  dist_a0_entries_nonneg distPrims rfl (fun _ => ball0) [(ball0, ⟨1, 0⟩)] [[(ball0, ⟨1, 0⟩)]]
    53 1 (by decide)

/-- C10: `ca_check_equal` decides equality exactly on the rational field:
when both operands lie in `QQ` it returns `T_TRUE` iff the underlying
rationals are equal and `T_FALSE` otherwise; when at least one operand is
not in `QQ` it returns `T_UNKNOWN`.  The embedding is a pure function of
`x` and `y`, so `x`, `y` and the context are not modified. -/
theorem ca_check_equal_spec (x y : Ca) (ctx : Unit) :
    (x.fieldId = CA_FIELD_ID_QQ ∧ y.fieldId = CA_FIELD_ID_QQ →
      (ca_check_equal x y ctx = Truth.T_TRUE ↔ x.fmpq = y.fmpq) ∧
      (ca_check_equal x y ctx = Truth.T_FALSE ↔ x.fmpq ≠ y.fmpq)) ∧
    (¬(x.fieldId = CA_FIELD_ID_QQ ∧ y.fieldId = CA_FIELD_ID_QQ) →
      ca_check_equal x y ctx = Truth.T_UNKNOWN) := by
  constructor
  · intro h
    unfold ca_check_equal fmpq_equal
    rw [if_pos h]
    by_cases he : x.fmpq = y.fmpq
    · rw [if_pos (by simpa using he)]
      constructor
      · exact ⟨fun _ => he, fun _ => rfl⟩
      · constructor
        · intro hc
          cases hc
        · intro hne
          exact absurd he hne
    · rw [if_neg (by simpa using he)]
      constructor
      · constructor
        · intro hc
          cases hc
        · intro heq
          exact absurd heq he
      · exact ⟨fun _ => he, fun _ => rfl⟩
  · intro h
    unfold ca_check_equal
    rw [if_neg h]

/-- C10 witness: concrete rational and non-rational operands. -/
theorem ca_check_equal_spec_witness :
    (ca_check_equal ⟨0, 1/2⟩ ⟨0, 1/2⟩ () = Truth.T_TRUE ↔ (1/2 : ℚ) = 1/2) ∧
    ca_check_equal ⟨1, 1/2⟩ ⟨0, 1/2⟩ () = Truth.T_UNKNOWN :=
  ⟨((ca_check_equal_spec ⟨0, 1/2⟩ ⟨0, 1/2⟩ ()).1 (by constructor <;> rfl)).1,
   (ca_check_equal_spec ⟨1, 1/2⟩ ⟨0, 1/2⟩ ()).2 (by simp [CA_FIELD_ID_QQ])⟩

lemma ordAux_pow_mul {p : ℤ} (hp : 2 ≤ p) (m : ℤ) (hm : ¬p ∣ m) :
    ∀ fuel k, k < fuel → ordAux p fuel (p ^ k * m) = k := by
  intro fuel
  induction fuel with
  | zero => intro k hk; omega
  | succ f ih =>
    intro k hk
    cases k with
    | zero =>
      simp only [pow_zero, one_mul, ordAux]
      rw [if_neg]
      intro hcon
      exact hm hcon.2.1
    | succ k =>
      have hm0 : m ≠ 0 := fun h => hm (h ▸ dvd_zero p)
      have hne : p ^ (k + 1) * m ≠ 0 := mul_ne_zero (pow_ne_zero _ (by omega)) hm0
      have hdvd : p ∣ p ^ (k + 1) * m :=
        Dvd.dvd.mul_right (dvd_pow_self p (Nat.succ_ne_zero k)) m
      show ordAux p (f + 1) (p ^ (k + 1) * m) = k + 1
      rw [ordAux, if_pos ⟨hp, hdvd, hne⟩]
      have hdiv : p ^ (k + 1) * m / p = p ^ k * m := by
        rw [pow_succ, mul_comm (p ^ k) p, mul_assoc]
        exact Int.mul_ediv_cancel_left _ (by omega)
      rw [hdiv, ih k (by omega)]

lemma ordZ_eq {p : ℤ} (hp : 2 ≤ p) (k : ℕ) (m : ℤ) (hm : ¬p ∣ m) :
    ordZ p (p ^ k * m) = (k : ℤ) := by
  have hm0 : m ≠ 0 := fun h => hm (h ▸ dvd_zero p)
  have hfuel : k < (p ^ k * m).natAbs := by
    have h1 : (p ^ k * m).natAbs = p.natAbs ^ k * m.natAbs := by
      rw [Int.natAbs_mul, Int.natAbs_pow]
    have h2 : 2 ≤ p.natAbs := by omega
    have h3 : 1 ≤ m.natAbs := Int.natAbs_pos.mpr hm0
    have h4 : 2 ^ k ≤ p.natAbs ^ k := Nat.pow_le_pow_left h2 k
    have h5 : k < 2 ^ k := Nat.lt_two_pow k
    calc k < 2 ^ k := h5
      _ ≤ p.natAbs ^ k := h4
      _ ≤ p.natAbs ^ k * m.natAbs := Nat.le_mul_of_pos_right _ (by omega)
      _ = (p ^ k * m).natAbs := h1.symm
  unfold ordZ
  rw [ordAux_pow_mul hp m hm _ k hfuel]

/-- C8: `padic_log` returns 0 (failure) exactly when the series does not
converge — the valuation of `op` is negative, or `y = 1 - op` is non-zero
with `p`-adic valuation `k` satisfying `k < 1` for `p ≠ 2` or `k < 2` for
`p = 2` — and in every failure case `rop` is unchanged.  In every success
case it returns 1; in particular `rop = 0` when `op = 1` or when the
valuation of `y` is at least the context precision `N`, and otherwise `rop`
receives the canonicalised series value. -/
theorem padic_log_failure_success (logFn : ℤ → ℤ → ℤ → ℤ → ℤ)
    (canonFn : PadicT → PadicCtx → PadicT) (rop op : PadicT) (ctx : PadicCtx)
    (hp : 2 ≤ ctx.p) :
    (op.v < 0 → padic_log logFn canonFn rop op ctx = (0, rop)) ∧
    (0 ≤ op.v → 1 - padic_get_fmpz op ctx = 0 →
      padic_log logFn canonFn rop op ctx = (1, padic_zero)) ∧
    (∀ (k : ℕ) (m : ℤ), 0 ≤ op.v → 1 - padic_get_fmpz op ctx = ctx.p ^ k * m →
      ¬ctx.p ∣ m →
      (((padic_log logFn canonFn rop op ctx).1 = 0 ↔ k = 0 ∨ (ctx.p = 2 ∧ k = 1)) ∧
       ((k = 0 ∨ (ctx.p = 2 ∧ k = 1)) → padic_log logFn canonFn rop op ctx = (0, rop)) ∧
       (¬(k = 0 ∨ (ctx.p = 2 ∧ k = 1)) →
         (padic_log logFn canonFn rop op ctx).1 = 1 ∧
         (ctx.N ≤ (k : ℤ) → (padic_log logFn canonFn rop op ctx).2 = padic_zero) ∧
         ((k : ℤ) < ctx.N →
           (padic_log logFn canonFn rop op ctx).2
             = canonFn ⟨logFn (ctx.p ^ k * m) k ctx.p ctx.N, 0⟩ ctx)))) := by
  refine ⟨?_, ?_, ?_⟩
  · intro h
    simp only [padic_log, if_pos h]
  · intro h1 h2
    simp only [padic_log, if_neg (not_lt.mpr h1), if_pos h2]
  · intro k m h0 heq hm
    have hm0 : m ≠ 0 := fun h => hm (h ▸ dvd_zero ctx.p)
    have hx0 : ctx.p ^ k * m ≠ 0 :=
      mul_ne_zero (pow_ne_zero _ (by omega)) hm0
    have hv : ordZ ctx.p (ctx.p ^ k * m) = (k : ℤ) := ordZ_eq hp k m hm
    simp only [padic_log, heq, if_neg (not_lt.mpr h0), if_neg hx0, hv]
    by_cases hcond : 2 ≤ (k : ℤ) ∨ (ctx.p ≠ 2 ∧ 1 ≤ (k : ℤ))
    · have hnotfail : ¬(k = 0 ∨ (ctx.p = 2 ∧ k = 1)) := by
        rcases hcond with h2k | ⟨hp2, h1k⟩
        · rintro (rfl | ⟨_, rfl⟩) <;> omega
        · rintro (rfl | ⟨hpe, _⟩)
          · omega
          · exact hp2 hpe
      rw [if_pos hcond]
      refine ⟨?_, ?_, ?_⟩
      · constructor
        · intro hres
          by_cases hN : ctx.N ≤ (k : ℤ)
          · rw [if_pos hN] at hres
            cases hres
          · rw [if_neg hN] at hres
            cases hres
        · intro hfail
          exact absurd hfail hnotfail
      · intro hfail
        exact absurd hfail hnotfail
      · intro _
        refine ⟨?_, ?_, ?_⟩
        · by_cases hN : ctx.N ≤ (k : ℤ)
          · rw [if_pos hN]
          · rw [if_neg hN]
        · intro hN
          rw [if_pos hN]
        · intro hN
          rw [if_neg (not_le.mpr hN)]
    · have hfail : k = 0 ∨ (ctx.p = 2 ∧ k = 1) := by
        push_neg at hcond
        obtain ⟨hlt2, hor⟩ := hcond
        by_cases hp2 : ctx.p = 2
        · have hk1 : k = 0 ∨ k = 1 := by omega
          rcases hk1 with rfl | rfl
          · exact Or.inl rfl
          · exact Or.inr ⟨hp2, rfl⟩
        · have := hor hp2
          left
          omega
      rw [if_neg hcond]
      exact ⟨⟨fun _ => hfail, fun _ => rfl⟩, fun _ => rfl, fun h => absurd hfail h⟩

/-- C8 witness: `p = 3`, `N = 2`, `op = -8` (so `y = 9 = 3^2`): success with
`rop` set to zero since the valuation 2 reaches the precision. -/
theorem padic_log_failure_success_witness :
    padic_log (fun _ _ _ _ => 0) (fun x _ => x) ⟨5, 0⟩ ⟨-8, 0⟩ ⟨3, 2⟩ = (1, padic_zero) := by
  have h := (padic_log_failure_success (fun _ _ _ _ => 0) (fun x _ => x) ⟨5, 0⟩ ⟨-8, 0⟩ ⟨3, 2⟩
    (by norm_num)).2.2 2 1 (by norm_num) (by decide) (by decide)
  have h1 := (h.2.2 (by omega)).1
  have h2 := (h.2.2 (by omega)).2.1 (by norm_num)
  have hfst : (padic_log (fun _ _ _ _ => 0) (fun x _ => x) ⟨5, 0⟩ ⟨-8, 0⟩ ⟨3, 2⟩).1 = 1 := h1
  have hsnd : (padic_log (fun _ _ _ _ => 0) (fun x _ => x) ⟨5, 0⟩ ⟨-8, 0⟩ ⟨3, 2⟩).2 =
      padic_zero := h2
  exact Prod.ext hfst hsnd

lemma flogAux_spec {p : ℕ} (hp : 2 ≤ p) :
    ∀ fuel n, 1 ≤ n → n ≤ fuel →
      p ^ flogAux p fuel n ≤ n ∧ n < p ^ (flogAux p fuel n + 1) := by
  intro fuel
  induction fuel with
  | zero => intro n h1 h2; exact absurd h2 (by omega)
  | succ f ih =>
    intro n h1 h2
    have heq : flogAux p (f + 1) n
        = if 2 ≤ p ∧ p ≤ n then flogAux p f (n / p) + 1 else 0 := rfl
    by_cases hpn : p ≤ n
    · have hd1 : 1 ≤ n / p := (Nat.one_le_div_iff (by omega)).mpr hpn
      have hd2 : n / p ≤ f := by
        have := Nat.div_lt_self (show 0 < n by omega) (show 1 < p by omega)
        omega
      obtain ⟨hl, hr⟩ := ih (n / p) hd1 hd2
      rw [heq, if_pos (And.intro hp hpn)]
      constructor
      · calc p ^ (flogAux p f (n / p) + 1) = p ^ flogAux p f (n / p) * p := by rw [pow_succ]
          _ ≤ (n / p) * p := Nat.mul_le_mul_right p hl
          _ ≤ n := Nat.div_mul_le_self n p
      · have h3 : n < (n / p) * p + p := by
          have hdm := Nat.div_add_mod n p
          have hml := Nat.mod_lt n (show 0 < p by omega)
          have hcm : p * (n / p) = (n / p) * p := Nat.mul_comm p (n / p)
          omega
        calc n < (n / p) * p + p := h3
          _ = (n / p + 1) * p := by ring
          _ ≤ p ^ (flogAux p f (n / p) + 1) * p := Nat.mul_le_mul_right p hr
          _ = p ^ (flogAux p f (n / p) + 1 + 1) := by ring
    · rw [heq, if_neg (fun hcon => hpn (And.right hcon))]
      constructor
      · simpa using h1
      · have hnp : n < p := by omega
        simpa using hnp

lemma n_flog_spec {p n : ℕ} (hp : 2 ≤ p) (hn : 1 ≤ n) :
    p ^ n_flog n p ≤ n ∧ n < p ^ (n_flog n p + 1) :=
  flogAux_spec hp n n hn le_rfl

lemma n_flog_max {p n k : ℕ} (hp : 2 ≤ p) (hn : 1 ≤ n) (h : p ^ k ≤ n) : k ≤ n_flog n p := by
  by_contra hlt
  push_neg at hlt
  have h2 := (n_flog_spec hp hn).2
  have h3 : p ^ (n_flog n p + 1) ≤ p ^ k := Nat.pow_le_pow_right (by omega) (by omega)
  omega

lemma n_flog_lt_of_lt {p n k : ℕ} (hp : 2 ≤ p) (hn : 1 ≤ n) (h : n < p ^ k) :
    n_flog n p < k := by
  by_contra hle
  push_neg at hle
  have h1 := (n_flog_spec hp hn).1
  have h3 : p ^ k ≤ p ^ n_flog n p := Nat.pow_le_pow_right (by omega) hle
  omega

lemma n_flog_zero_of_lt {p n : ℕ} (hp : 2 ≤ p) (h : n < p) : n_flog n p = 0 := by
  rcases Nat.eq_zero_or_pos n with rfl | hn
  · rfl
  · have := n_flog_lt_of_lt hp hn (show n < p ^ 1 by simpa using h)
    omega

lemma n_clog_ge {p n : ℕ} (hp : 2 ≤ p) : n ≤ p ^ n_clog n p := by
  unfold n_clog
  split_ifs with h
  · simpa using h
  · push_neg at h
    have h2 := (n_flog_spec hp (show 1 ≤ n - 1 by omega)).2
    omega

lemma n_clog_min {p n : ℕ} (hp : 2 ≤ p) (hn : 2 ≤ n) : p ^ (n_clog n p - 1) < n := by
  unfold n_clog
  rw [if_neg (by omega)]
  simp only [Nat.add_sub_cancel]
  have := (n_flog_spec hp (show 1 ≤ n - 1 by omega)).1
  omega

lemma n_clog_le_of_le {p n k : ℕ} (hp : 2 ≤ p) (h : n ≤ p ^ k) : n_clog n p ≤ k := by
  unfold n_clog
  split_ifs with h1
  · omega
  · push_neg at h1
    have hn1 : 1 ≤ n - 1 := by omega
    have h2 : n - 1 < p ^ k := by omega
    have := n_flog_lt_of_lt hp hn1 h2
    omega

lemma n_clog_ge_of_lt {p n k : ℕ} (hp : 2 ≤ p) (hn : 2 ≤ n) (h : p ^ k < n) :
    k + 1 ≤ n_clog n p := by
  by_contra hle
  push_neg at hle
  have h1 := n_clog_ge (p := p) (n := n) hp
  have h3 : p ^ n_clog n p ≤ p ^ k := Nat.pow_le_pow_right (by omega) (by omega)
  omega

lemma flog_le_clog {p n : ℕ} (hp : 2 ≤ p) (hn : 1 ≤ n) : n_flog n p ≤ n_clog n p := by
  have h1 := (n_flog_spec hp hn).1
  have h2 := n_clog_ge (p := p) (n := n) hp
  by_contra hlt
  push_neg at hlt
  have h3 : p ^ (n_clog n p + 1) ≤ p ^ n_flog n p := Nat.pow_le_pow_right (by omega) (by omega)
  have h4 : p ^ n_clog n p < p ^ (n_clog n p + 1) := Nat.pow_lt_pow_succ (by omega)
  omega

lemma flog_succ_le {p i : ℕ} (hp : 2 ≤ p) (hi : 1 ≤ i) :
    n_flog (i + 1) p ≤ n_flog i p + 1 := by
  have h2 := (n_flog_spec hp hi).2
  have hlt : i + 1 < p ^ (n_flog i p + 1 + 1) := by
    have hpow : p ^ (n_flog i p + 1) < p ^ (n_flog i p + 1 + 1) := Nat.pow_lt_pow_succ (by omega)
    omega
  have := n_flog_lt_of_lt hp (by omega) hlt
  omega

lemma linear_sub_flog_ge {p v N : ℕ} (hp : 2 ≤ p) (hv : 1 ≤ v) (b : ℕ) (hb : 1 ≤ b)
    (hbase : N + n_flog b p ≤ b * v) :
    ∀ i, b ≤ i → N + n_flog i p ≤ i * v := by
  intro i hbi
  induction i, hbi using Nat.le_induction with
  | base => exact hbase
  | succ i hbi ih =>
    have hstep := flog_succ_le hp (show 1 ≤ i by omega)
    have hmul : (i + 1) * v = i * v + v := by ring
    rw [hmul]
    omega

lemma boundLoop_spec (v N p : ℕ) :
    ∀ start, 2 ≤ padicLogBoundLoop v N p start ∧
      (padicLogBoundLoop v N p start ≤ start + 1 ∨ padicLogBoundLoop v N p start = 2) ∧
      (∀ i, padicLogBoundLoop v N p start ≤ i → i ≤ start → N + n_clog i p ≤ i * v) := by
  intro start
  induction start with
  | zero =>
    refine ⟨le_refl 2, Or.inr rfl, fun i h1 h2 => ?_⟩
    have h1a : 2 ≤ i := h1
    exact absurd (le_trans h1a h2) (by omega)
  | succ b ih =>
    cases b with
    | zero =>
      refine ⟨le_refl 2, Or.inr rfl, fun i h1 h2 => ?_⟩
      have h1a : 2 ≤ i := h1
      exact absurd (le_trans h1a h2) (by omega)
    | succ b =>
      have heq : padicLogBoundLoop v N p (b + 2)
          = if (b + 2) * v < N + n_clog (b + 2) p then b + 3
            else padicLogBoundLoop v N p (b + 1) := rfl
      by_cases hc : (b + 2) * v < N + n_clog (b + 2) p
      · rw [heq, if_pos hc]
        refine ⟨by omega, Or.inl (le_refl _), fun i h1 h2 => ?_⟩
        exact absurd (le_trans h1 h2) (by omega)
      · rw [heq, if_neg hc]
        obtain ⟨ih1, ih2, ih3⟩ := ih
        refine ⟨ih1, ?_, fun i h1 h2 => ?_⟩
        · rcases ih2 with h | h
          · exact Or.inl (by omega)
          · exact Or.inr h
        · by_cases hi : i ≤ b + 1
          · exact ih3 i h1 hi
          · have hieq : i = b + 2 := by omega
            rw [hieq]
            exact not_lt.mp hc

lemma bound_b0_base {p v N s c L b0 : ℕ} (hp : 2 ≤ p) (hv : 1 ≤ v) (hvN : v < N)
    (hs : s = n_flog v p) (hc : c = N - s) (hL : L = n_clog c p)
    (hb0 : b0 = (c + L + 1 + (v - 1)) / v) :
    2 ≤ b0 ∧ N + n_flog b0 p ≤ b0 * v := by
  have hps : p ^ s ≤ v := by rw [hs]; exact (n_flog_spec hp hv).1
  have hv1 : v < p ^ (s + 1) := by rw [hs]; exact (n_flog_spec hp hv).2
  have hsps : s < p ^ s := by
    calc s < 2 ^ s := Nat.lt_two_pow s
      _ ≤ p ^ s := Nat.pow_le_pow_left hp s
  have hsv : s < v := lt_of_lt_of_le hsps hps
  have hc2 : 2 ≤ c := by omega
  have hcL : c ≤ p ^ L := by rw [hL]; exact n_clog_ge hp
  have hLpL : L < p ^ L := by
    calc L < 2 ^ L := Nat.lt_two_pow L
      _ ≤ p ^ L := Nat.pow_le_pow_left hp L
  -- rewrite b0 as (c + L) / v + 1
  have hb0' : b0 = (c + L) / v + 1 := by
    rw [hb0]
    have : c + L + 1 + (v - 1) = c + L + v := by omega
    rw [this, Nat.add_div_right _ (by omega)]
  -- b0 * v ≥ c + L + 1
  have hdm := Nat.div_add_mod (c + L) v
  have hml := Nat.mod_lt (c + L) (show 0 < v by omega)
  have hbv : c + L + 1 ≤ b0 * v := by
    have : b0 * v = (c + L) / v * v + v := by rw [hb0']; ring
    have hcm : v * ((c + L) / v) = (c + L) / v * v := Nat.mul_comm _ _
    omega
  -- s ≤ L when 1 ≤ s
  have hsL : 1 ≤ s → s ≤ L := by
    intro hs1
    have hgap : p ^ (s - 1) < c := by
      have h1 : p ^ s = p ^ (s - 1) * p := by
        rw [← pow_succ]
        congr 1
        omega
      have h2 : 2 * p ^ (s - 1) ≤ p ^ s := by
        rw [h1, mul_comm]
        exact Nat.mul_le_mul_left _ hp
      have h3 : s ≤ p ^ (s - 1) := by
        have := Nat.lt_two_pow (s - 1)
        have h4 : 2 ^ (s - 1) ≤ p ^ (s - 1) := Nat.pow_le_pow_left hp (s - 1)
        omega
      omega
    have := n_clog_ge_of_lt hp hc2 hgap
    rw [← hL] at this
    omega
  -- 2 ≤ b0
  have hcLv : v < c + L := by
    rcases Nat.eq_zero_or_pos s with hs0 | hs1
    · omega
    · have := hsL hs1
      omega
  have hb02 : 2 ≤ b0 := by
    rw [hb0']
    have : 1 ≤ (c + L) / v := (Nat.one_le_div_iff (by omega)).mpr (by omega)
    omega
  refine ⟨hb02, ?_⟩
  -- flog b0 ≤ L + 1 - s, via b0 < p ^ (L + 2 - s)
  have hflog : n_flog b0 p + s ≤ L + 1 := by
    rcases Nat.eq_zero_or_pos s with hs0 | hs1
    · -- s = 0 : b0 ≤ c + L + 1 ≤ 2 p^L ≤ p^(L+1)
      have hble : b0 ≤ c + L + 1 := by
        rw [hb0']
        have : (c + L) / v ≤ c + L := Nat.div_le_self _ _
        omega
      have hlt : b0 < p ^ (L + 2) := by
        have h1 : c + L + 1 ≤ 2 * p ^ L := by omega
        have h2 : 2 * p ^ L ≤ p ^ (L + 1) := by
          rw [pow_succ, mul_comm]
          exact Nat.mul_le_mul_left _ hp
        have h3 : p ^ (L + 2) = p ^ (L + 1) * p := by ring
        have h4 : p ^ (L + 1) * 2 ≤ p ^ (L + 1) * p := Nat.mul_le_mul_left _ hp
        have h5 : 1 ≤ p ^ (L + 1) := Nat.one_le_pow _ _ (by omega)
        omega
      have := n_flog_lt_of_lt hp (by omega) hlt
      omega
    · -- s ≥ 1 : b0 ≤ (c+L)/p^s + 1 ≤ p^(L+2-s) - 1
      have hsLe := hsL hs1
      have hdiv : (c + L) / v ≤ (c + L) / p ^ s := by
        exact Nat.div_le_div_left hps (pow_pos (show 0 < p by omega) s)
      have hkey : c + L ≤ p ^ (L + 2) - 2 * p ^ s := by
        have h1 : p ^ s ≤ p ^ L := Nat.pow_le_pow_right (by omega) hsLe
        have h2 : p ^ (L + 2) = p ^ L * (p * p) := by ring
        have h3 : 4 * p ^ L ≤ p ^ (L + 2) := by
          rw [h2, mul_comm]
          exact Nat.mul_le_mul_left _ (Nat.mul_le_mul hp hp)
        omega
      have hdiv2 : (c + L) / p ^ s ≤ p ^ (L + 2 - s) - 2 := by
        have hsub : (p ^ (L + 2) - 2 * p ^ s) / p ^ s = p ^ (L + 2 - s) - 2 := by
          have hfac : p ^ (L + 2) - 2 * p ^ s = (p ^ (L + 2 - s) - 2) * p ^ s := by
            have hpow : p ^ (L + 2 - s) * p ^ s = p ^ (L + 2) := by
              rw [← pow_add]
              congr 1
              omega
            have h2le : 2 ≤ p ^ (L + 2 - s) := by
              have h0 : 1 ≤ L + 2 - s := by omega
              calc 2 = 2 ^ 1 := rfl
                _ ≤ p ^ 1 := by simpa using hp
                _ ≤ p ^ (L + 2 - s) := Nat.pow_le_pow_right (by omega) h0
            rw [Nat.sub_mul, hpow]
          rw [hfac]
          exact Nat.mul_div_cancel _ (pow_pos (show 0 < p by omega) s)
        calc (c + L) / p ^ s ≤ (p ^ (L + 2) - 2 * p ^ s) / p ^ s :=
              Nat.div_le_div_right hkey
          _ = p ^ (L + 2 - s) - 2 := hsub
      have hb0lt : b0 < p ^ (L + 2 - s) := by
        have h2le : 2 ≤ p ^ (L + 2 - s) := by
          have h0 : 1 ≤ L + 2 - s := by omega
          calc 2 = 2 ^ 1 := rfl
            _ ≤ p ^ 1 := by simpa using hp
            _ ≤ p ^ (L + 2 - s) := Nat.pow_le_pow_right (by omega) h0
        rw [hb0']
        omega
      have := n_flog_lt_of_lt hp (by omega) hb0lt
      omega
  -- conclude: N + flog b0 = c + s + flog b0 ≤ c + L + 1 ≤ b0 * v
  omega

lemma bound_overflow {p v N s c L : ℕ} (hp : 2 ≤ p) (hv : 1 ≤ v) (hvN : v < N)
    (hN : N < 2 ^ 62) (hs : s = n_flog v p) (hc : c = N - s) (hL : L = n_clog c p) :
    c + L + v ≤ 2 ^ 63 - 1 := by
  have hps : p ^ s ≤ v := by rw [hs]; exact (n_flog_spec hp hv).1
  have hv1 : v < p ^ (s + 1) := by rw [hs]; exact (n_flog_spec hp hv).2
  have hsps : s < p ^ s := by
    calc s < 2 ^ s := Nat.lt_two_pow s
      _ ≤ p ^ s := Nat.pow_le_pow_left hp s
  have hsv : s < v := lt_of_lt_of_le hsps hps
  have hc2 : 2 ≤ c := by omega
  by_cases hLs : L ≤ s + 2
  · omega
  · -- L ≥ s + 3 : v < p^(s+1) ≤ p^(L-2) and 2 p^(L-2) ≤ p^(L-1) < c
    have hmin : p ^ (L - 1) < c := by
      rw [hL]
      exact n_clog_min hp hc2
    have h1 : p ^ (s + 1) ≤ p ^ (L - 2) := Nat.pow_le_pow_right (by omega) (by omega)
    have h2 : 2 * p ^ (L - 2) ≤ p ^ (L - 1) := by
      have hE : L - 1 = (L - 2) + 1 := by omega
      rw [hE, pow_succ, mul_comm]
      exact Nat.mul_le_mul_left _ hp
    have h2v : 2 * v < c := by omega
    have hL62 : L ≤ 62 := by
      rw [hL]
      have hcle : c ≤ 2 ^ 62 := by omega
      calc n_clog c p ≤ n_clog c 2 := by
            apply n_clog_le_of_le hp
            calc c ≤ 2 ^ n_clog c 2 := n_clog_ge (le_refl 2)
              _ ≤ p ^ n_clog c 2 := Nat.pow_le_pow_left hp _
        _ ≤ 62 := n_clog_le_of_le (le_refl 2) hcle
    omega

lemma small_branch_bound {p v N : ℕ} (hp : 2 ≤ p) (hv : 1 ≤ v) (hvN : v < N) :
    ∀ i k : ℕ,
      padicLogBoundLoop v N p
        ((N - n_flog v p + n_clog (N - n_flog v p) p + 1 + (v - 1)) / v - 1) ≤ i →
      p ^ k ∣ i → N + k ≤ i * v := by
  intro i k hbi hdvd
  set s := n_flog v p with hs
  set c := N - s with hc
  set L := n_clog c p with hL
  set b0 := (c + L + 1 + (v - 1)) / v with hb0
  obtain ⟨hb02, hbase⟩ := bound_b0_base hp hv hvN hs hc hL hb0
  obtain ⟨hr2, hrb, hrange⟩ := boundLoop_spec v N p (b0 - 1)
  have hi1 : 1 ≤ i := by omega
  have hkfl : k ≤ n_flog i p := n_flog_max hp hi1 (Nat.le_of_dvd (by omega) hdvd)
  by_cases hib : b0 ≤ i
  · have := linear_sub_flog_ge hp hv b0 (by omega) hbase i hib
    omega
  · have hloop := hrange i hbi (by omega)
    have hfc : n_flog i p ≤ n_clog i p := flog_le_clog hp hi1
    omega

lemma big_branch_bound {p v N : ℕ} (hp : 2 ≤ p) (hv : 1 ≤ v) (hvN : v < N)
    (hN62 : N < 2 ^ 62) (hbig : 2 ^ 63 - 1 < p) :
    2 ≤ (N + v - 1) / v ∧
      ∀ i k : ℕ, (N + v - 1) / v ≤ i → p ^ k ∣ i → N + k ≤ i * v := by
  have hr2 : 2 ≤ (N + v - 1) / v := by
    rw [Nat.le_div_iff_mul_le (show 0 < v by omega)]
    omega
  refine ⟨hr2, fun i k hbi hdvd => ?_⟩
  set r := (N + v - 1) / v with hr
  have hrN : r ≤ N + v - 1 := Nat.div_le_self _ _
  have hrp : r < p := by omega
  have hflogr : n_flog r p = 0 := n_flog_zero_of_lt hp hrp
  have hrv : N ≤ r * v := by
    have hdm := Nat.div_add_mod (N + v - 1) v
    have hml := Nat.mod_lt (N + v - 1) (show 0 < v by omega)
    have hcm : v * ((N + v - 1) / v) = (N + v - 1) / v * v := Nat.mul_comm _ _
    rw [hr]
    omega
  have hbase : N + n_flog r p ≤ r * v := by omega
  have hmono := linear_sub_flog_ge hp hv r (by omega) hbase i hbi
  have hi1 : 1 ≤ i := by omega
  have hkfl : k ≤ n_flog i p := n_flog_max hp hi1 (Nat.le_of_dvd (by omega) hdvd)
  omega

/-- C9: for every prime `p`, every `1 ≤ N < 2^(FLINT_BITS - 2)` and every
valuation `v` with `1 ≤ v < N` (`2 ≤ v` when `p = 2`), `_padic_log_bound`
returns a bound `b ≥ 2` such that `i*v - ord_p(i) ≥ N` for all `i ≥ b`
(stated as: every `k` with `p^k ∣ i` satisfies `i*v - k ≥ N`), and the
largest intermediate quantity `c + n_clog(c, p) + v` fits in a signed
64-bit word, so the computation does not overflow; when
`N ≥ 2^(FLINT_BITS - 2)` the function aborts instead of returning
(modelled as `none`). -/
theorem padic_log_bound_correct (p v N : ℕ) (hprime : Nat.Prime p) (hv : 1 ≤ v)
    (hp2v : p = 2 → 2 ≤ v) (hvN : v < N) :
    (N < 2 ^ (FLINT_BITS - 2) →
      ∃ b, padic_log_bound v N p = some b ∧ 2 ≤ b ∧
        (∀ i k : ℕ, b ≤ i → p ^ k ∣ i → (N : ℤ) ≤ (i : ℤ) * v - k) ∧
        N - n_flog v p + n_clog (N - n_flog v p) p + v ≤ 2 ^ 63 - 1) ∧
    (2 ^ (FLINT_BITS - 2) ≤ N → padic_log_bound v N p = none) := by
  have hp : 2 ≤ p := hprime.two_le
  constructor
  · intro hN
    have hN62 : N < 2 ^ 62 := hN
    have hoverflow : N - n_flog v p + n_clog (N - n_flog v p) p + v ≤ 2 ^ 63 - 1 :=
      bound_overflow hp hv hvN hN62 rfl rfl rfl
    by_cases hps : p ≤ 2 ^ 63 - 1
    · refine ⟨padicLogBoundLoop v N p
          ((N - n_flog v p + n_clog (N - n_flog v p) p + 1 + (v - 1)) / v - 1),
        ?_, ?_, ?_, hoverflow⟩
      · simp only [padic_log_bound]
        rw [if_neg (not_le.mpr hN), if_pos hps]
      · exact (boundLoop_spec v N p _).1
      · intro i k hbi hdvd
        have hnk : N + k ≤ i * v := small_branch_bound hp hv hvN i k hbi hdvd
        have hcast : (N : ℤ) + k ≤ (i : ℤ) * v := by exact_mod_cast hnk
        linarith
    · refine ⟨(N + v - 1) / v, ?_, ?_, ?_, hoverflow⟩
      · simp only [padic_log_bound]
        rw [if_neg (not_le.mpr hN), if_neg hps]
      · exact (big_branch_bound hp hv hvN hN62 (by omega)).1
      · intro i k hbi hdvd
        have hnk : N + k ≤ i * v :=
          (big_branch_bound hp hv hvN hN62 (by omega)).2 i k hbi hdvd
        have hcast : (N : ℤ) + k ≤ (i : ℤ) * v := by exact_mod_cast hnk
        linarith
  · intro h
    simp only [padic_log_bound]
    rw [if_pos h]

/-- C9 witness: `p = 3`, `v = 1`, `N = 2` — the returned bound is 3 and the
hypotheses hold concretely. -/
theorem padic_log_bound_correct_witness :
    ∃ b, padic_log_bound 1 2 3 = some b ∧ 2 ≤ b ∧
      (∀ i k : ℕ, b ≤ i → 3 ^ k ∣ i → (2 : ℤ) ≤ (i : ℤ) * 1 - k) ∧
      2 - n_flog 1 3 + n_clog (2 - n_flog 1 3) 3 + 1 ≤ 2 ^ 63 - 1 :=
  (padic_log_bound_correct 3 1 2 (by norm_num) (by norm_num) (by omega)
    (by norm_num)).1 (by norm_num [FLINT_BITS])
